import Mathlib

/-!
Verification development for the spotinst-metrics-exporter cost attribution
and label-correlation engine.

The definitions below are shallow embeddings of the Go source:

* the cardinality reducer `aggregateHighCardinalityResources` together with
  the identifier normalization built on `uuidRegex`
  (`pkg/collectors`, mcs-based cost collector);
* the billing-window computation, faithful to the `time.AddDate`
  normalization semantics restricted to the Gregorian calendar dates the
  collector feeds it;
* the v2 aggregated-cost collector (`Collect`, `collectClusterCosts`,
  `collectWorkloadCosts`) and the legacy collector variant of
  `ocean_aws_cluster_costs.go`;
* the label retriever (`PopulateOnce`, `GetLabelFor`, `cacheKeyViaIdentifier`).

Costs (Go `float64`) are modelled as exact integers `ℤ`: every claim under
study is a bookkeeping identity over `+`, `-`, `≤` — carrier-generic ring
facts for which the billing values are treated as exact quantities.  Go maps are modelled as association lists in
insertion order; map iteration order (which Go randomizes) only affects the
order of emitted samples, never their multiset, and the claims only concern
sums, counts and multisets.
-/

namespace SpotinstExporter

/-! ## Cardinality reducer: uuidRegex stripping

`uuidRegex = [0-9]{8}|[0-9a-fA-F]{8}-[0-9a-fA-F]{4}-[0-9a-fA-F]{4}-[0-9a-fA-F]{4}-[0-9a-fA-F]{12}`

The Go `ReplaceAllString(name, "")` call scans left to right; at every position it
first tries the 8-digit alternative, then the UUID alternative (Go regexp is
leftmost-first), removes a match and resumes after it, otherwise keeps the
character and advances one position.  The scan is implemented with
list-length fuel; the fuel never runs out because each step consumes at
least one character. -/

/-- Character class `[0-9a-fA-F]` of the UUID alternative. -/
def isHexDigit (c : Char) : Bool :=
  c.isDigit || ('a' ≤ c && c ≤ 'f') || ('A' ≤ c && c ≤ 'F')

/-- Match exactly `n` characters satisfying `p`; return the rest on success. -/
def takeExact (n : Nat) (p : Char → Bool) (l : List Char) : Option (List Char) :=
  if (l.take n).length = n && (l.take n).all p then some (l.drop n) else none

/-- Match the `[0-9]{8}` alternative of `uuidRegex`. -/
def matchTimestamp (l : List Char) : Option (List Char) :=
  takeExact 8 Char.isDigit l

/-- Match a literal hyphen. -/
def matchDash : List Char → Option (List Char)
  | '-' :: rest => some rest
  | _ => none

/-- Match the 8-4-4-4-12 UUID alternative of `uuidRegex`. -/
def matchUUID (l : List Char) : Option (List Char) :=
  (takeExact 8 isHexDigit l).bind fun r1 =>
  (matchDash r1).bind fun r2 =>
  (takeExact 4 isHexDigit r2).bind fun r3 =>
  (matchDash r3).bind fun r4 =>
  (takeExact 4 isHexDigit r4).bind fun r5 =>
  (matchDash r5).bind fun r6 =>
  (takeExact 4 isHexDigit r6).bind fun r7 =>
  (matchDash r7).bind fun r8 =>
  takeExact 12 isHexDigit r8

/-- One fueled step list of `uuidRegex.ReplaceAllString(·, "")`: leftmost-first
scan removing every match of either alternative. -/
def stripScan : Nat → List Char → List Char
  | 0, l => l
  | _ + 1, [] => []
  | fuel + 1, c :: cs =>
    match matchTimestamp (c :: cs) with
    | some rest => stripScan fuel rest
    | none =>
      match matchUUID (c :: cs) with
      | some rest => stripScan fuel rest
      | none => c :: stripScan fuel cs

/-- Model of `uuidRegex.ReplaceAllString(name, "")`. -/
def uuidRegexReplaceAll (s : String) : String :=
  String.mk (stripScan s.data.length s.data)

/-- Model of `strings.ReplaceAll(name, "--", "-")`: left-to-right,
non-overlapping. -/
def replaceDoubleHyphen : List Char → List Char
  | [] => []
  | [c] => [c]
  | c1 :: c2 :: rest =>
    if c1 = '-' ∧ c2 = '-' then '-' :: replaceDoubleHyphen rest
    else c1 :: replaceDoubleHyphen (c2 :: rest)

/-- Model of `strings.Trim(name, "-")`. -/
def trimHyphens (l : List Char) : List Char :=
  ((l.dropWhile (· == '-')).reverse.dropWhile (· == '-')).reverse

/-- Model of `strings.Trim(strings.ReplaceAll(name, "--", "-"), "-")`. -/
def collapseAndTrim (s : String) : String :=
  String.mk (trimHyphens (replaceDoubleHyphen s.data))

/-- The identifier-normalization step of `aggregateHighCardinalityResources`:
strip timestamps/UUIDs; if and only if that changed the name, collapse
duplicate hyphens and trim leading/trailing hyphens. -/
def normalizeResourceName (s : String) : String :=
  let name := uuidRegexReplaceAll s
  if name = s then s else collapseAndTrim name

/-! ## Cardinality reducer: cost aggregation -/

/-- The fields of `mcs.Resource` used by `aggregateHighCardinalityResources`:
the resource name and its cost (the labels play no role in the claims about
this function). -/
structure McsResource where
  name : String
  cost : ℤ
  deriving DecidableEq, Repr

/-- Go map lookup on the association-list model of `resourceMap`. -/
def mapFind (m : List (String × McsResource)) (k : String) : Option McsResource :=
  (m.find? (fun e => e.1 == k)).map (·.2)

/-- Go map store `resourceMap[name] = resource`: replace the existing binding
in place, otherwise append (insertion order stands in for the unordered Go map
iteration). -/
def mapInsert : List (String × McsResource) → String → McsResource →
    List (String × McsResource)
  | [], k, r => [(k, r)]
  | e :: m, k, r => if e.1 = k then (k, r) :: m else e :: mapInsert m k r

/-- One iteration of the loop body of `aggregateHighCardinalityResources`. -/
def aggStep (m : List (String × McsResource)) (resource : McsResource) :
    List (String × McsResource) :=
  let oldName := resource.name
  let name := uuidRegexReplaceAll oldName
  if name ≠ oldName then
    let name := collapseAndTrim name
    let cost :=
      match mapFind m name with
      | some existing => resource.cost + existing.cost
      | none => resource.cost
    mapInsert m name { name := name, cost := cost }
  else
    mapInsert m name resource

/-- The `resourceMap` built by `aggregateHighCardinalityResources`. -/
def aggResourceMap (resources : List McsResource) : List (String × McsResource) :=
  resources.foldl aggStep []

/-- Model of `aggregateHighCardinalityResources`: the `cleaned` slice of the
values of the map. -/
def aggregateHighCardinalityResources (resources : List McsResource) :
    List McsResource :=
  (aggResourceMap resources).map (·.2)

/-- Sum of the `Cost` fields of a list of resources. -/
def sumCosts (resources : List McsResource) : ℤ :=
  (resources.map (·.cost)).sum

/-- Sum of the costs stored in the resource map. -/
def sumMapCosts (m : List (String × McsResource)) : ℤ :=
  (m.map (·.2.cost)).sum

/-! ## Billing window

`Collect` and `PopulateOnce` both compute
`now.AddDate(0, 0, -now.Day()+1)` and `now.AddDate(0, 1, -now.Day()+1)` and
format them with layout `"2006-01-02"`.  The Go `AddDate` feeds the raw
year/month/day sums to `time.Date`, which normalizes the month into `1..12`
(shifting years) and then rolls out-of-range days over month boundaries.
The day rollover is implemented with fuel; the collector only ever reaches it
with day value `now.Day() + (1 - now.Day()) = 1`, which needs no rollover
step at all. -/

/-- A wall-clock date as the collector uses it (time of day is irrelevant:
the layout `"2006-01-02"` is date-only). -/
structure Date where
  year : ℤ
  month : ℤ
  day : ℤ
  deriving DecidableEq, Repr

/-- Gregorian leap-year rule (as in the Go `time` package, for CE years). -/
def isLeap (y : ℤ) : Bool :=
  y % 4 = 0 && (y % 100 ≠ 0 || y % 400 = 0)

/-- Days in a month of the proleptic Gregorian calendar. -/
def daysInMonth (y m : ℤ) : ℤ :=
  if m = 2 then (if isLeap y then 29 else 28)
  else if m = 4 ∨ m = 6 ∨ m = 9 ∨ m = 11 then 30
  else 31

/-- Normalize a (year, raw month) pair so the month lands in `1..12`,
as the Go `norm(year, int(month)-1, 12)` call does. -/
def normMonth (y m : ℤ) : ℤ × ℤ :=
  (y + (m - 1) / 12, (m - 1) % 12 + 1)

/-- Roll an out-of-range day value over month boundaries (the effect of the Go
`time.Date` constructor converting through absolute time).  Fueled; each step moves the
day at least 28 days closer to range. -/
def normDay : Nat → ℤ → ℤ → ℤ → Date
  | 0, y, m, d => ⟨y, m, d⟩
  | fuel + 1, y, m, d =>
    if d < 1 then
      let p := normMonth y (m - 1)
      normDay fuel p.1 p.2 (d + daysInMonth p.1 p.2)
    else if d > daysInMonth y m then
      let p := normMonth y (m + 1)
      normDay fuel p.1 p.2 (d - daysInMonth y m)
    else ⟨y, m, d⟩

/-- Model of the Go `t.AddDate(years, months, days)` call. -/
def goAddDate (t : Date) (years months days : ℤ) : Date :=
  let p := normMonth (t.year + years) (t.month + months)
  normDay 1000 p.1 p.2 (t.day + days)

/-- Zero-pad a natural number to two decimal digits. -/
def pad2 (n : ℕ) : String :=
  if n < 10 then "0" ++ toString n else toString n

/-- Zero-pad a natural number to four decimal digits. -/
def pad4 (n : ℕ) : String :=
  if n < 10 then "000" ++ toString n
  else if n < 100 then "00" ++ toString n
  else if n < 1000 then "0" ++ toString n
  else toString n

/-- Model of the Go `Format("2006-01-02")` layout for CE dates. -/
def formatDate (t : Date) : String :=
  pad4 t.year.toNat ++ "-" ++ pad2 t.month.toNat ++ "-" ++ pad2 t.day.toNat

/-- The `fromDate` string computed at the start of a collection pass:
`now.AddDate(0, 0, -now.Day()+1).Format("2006-01-02")`. -/
def fromDateOf (now : Date) : String :=
  formatDate (goAddDate now 0 0 (-now.day + 1))

/-- The `toDate` string computed at the start of a collection pass:
`now.AddDate(0, 1, -now.Day()+1).Format("2006-01-02")`. -/
def toDateOf (now : Date) : String :=
  formatDate (goAddDate now 0 1 (-now.day + 1))

/-! ## Shared collector data model -/

/-- The fields of `aws.Cluster` the collectors read. -/
structure Cluster where
  id : String
  name : String
  controllerClusterId : String
  deriving DecidableEq, Repr

/-- A Kubernetes label set (`map[string]string`), as an association list. -/
abbrev Labels := List (String × String)

/-- Go map index `labels[key]` (returns the zero value `""` when absent). -/
def labelsIndex (ls : Labels) (key : String) : String :=
  ((ls.find? (fun e => e.1 == key)).map (·.2)).getD ""

/-- The `K8sLabelRetriever.GetLabelFor` interface consumed by the collector:
argument order `(resourceType, namespace, cluster, resourceIdentifier)`;
`none` models the error return. -/
abbrev GetLabelFn := String → String → String → String → Option Labels

/-- The `labels.Mappings.LabelValues` operation consumed by the collector
(its implementation lives in `pkg/labels`, outside the claims under study,
so it is kept abstract). -/
abbrev MapValsFn := Labels → List String

/-- A gauge sample written to the prometheus channel, tagged with the
descriptor it belongs to. -/
inductive Sample where
  | clusterCost (value : ℤ) (labelValues : List String)
  | namespaceCost (value : ℤ) (labelValues : List String)
  | workloadCost (value : ℤ) (labelValues : List String)
  | resourceCost (value : ℤ) (labelValues : List String)
  deriving DecidableEq, Repr

/-- Is this sample a `namespace_cost` sample? -/
def Sample.isNamespaceCost : Sample → Bool
  | .namespaceCost _ _ => true
  | _ => false

/-- Is this sample a `workload_cost` sample? -/
def Sample.isWorkloadCost : Sample → Bool
  | .workloadCost _ _ => true
  | _ => false

/-- The value of a `namespace_cost` sample. -/
def Sample.namespaceCostValue : Sample → Option ℤ
  | .namespaceCost v _ => some v
  | _ => none

/-- The fields of `aws.AggregatedCostResource` the collectors read.
`typ`, `name`, `namespace` are `MetaData.Type/Name/Namespace`;
`storageTotal` and `computeTotal` are the independent `Storage.Total` and
`Compute.Total` fields of the billing record. -/
structure CostResource where
  typ : String
  name : String
  namespaceName : String
  total : ℤ
  storageTotal : ℤ
  computeTotal : ℤ
  deriving DecidableEq, Repr

/-- `Result.TotalForDuration` of an aggregated cluster cost:
`Summary.Total` plus `DetailedCosts.Aggregations` (each aggregation
contributing its `Resources`). -/
structure TotalForDuration where
  summaryTotal : ℤ
  aggregations : List (List CostResource)
  deriving DecidableEq, Repr

/-- `aws.AggregatedClusterCost` (the `Result.TotalForDuration` pointer may be
nil). -/
structure AggregatedClusterCost where
  totalForDuration : Option TotalForDuration
  deriving DecidableEq, Repr

/-- `aws.ClusterAggregatedCostInput`. -/
structure ClusterAggregatedCostInput where
  startTime : String
  endTime : String
  groupBy : String
  oceanId : String
  deriving DecidableEq, Repr

/-- `aws.ClusterAggregatedCostOutput`. -/
structure ClusterAggregatedCostOutput where
  aggregatedClusterCosts : List AggregatedClusterCost
  deriving DecidableEq, Repr

/-- The billing client `GetClusterAggregatedCosts`; `none` models the error
return. -/
abbrev BillingClientFn := ClusterAggregatedCostInput → Option ClusterAggregatedCostOutput

/-- Go map accumulation `aggregatedNamespaceCost[namespace] += workloadCost`
(insert on first encounter), on the association-list model. -/
def upsertAdd : List (String × ℤ) → String → ℤ → List (String × ℤ)
  | [], ns, c => [(ns, c)]
  | e :: m, ns, c => if e.1 = ns then (ns, e.2 + c) :: m else e :: upsertAdd m ns c

/-! ## The v2 aggregated-cost collector

Shallow embedding of `OceanAWSClusterCostsCollector` (the
`GetClusterAggregatedCosts`-based collector with label retriever and
`UnusedStorage` exclusion).  Channel emission becomes an ordered sample
list; the abstract `K8sLabelRetriever` and `labels.Mappings` collaborators
become the function parameters `getLabelFor` and `mapVals`. -/

namespace OceanV2

open SpotinstExporter

/-- Embedding of `collectWorkloadCosts`: returns the emitted samples plus the
`(namespace, workloadTotalCost)` pair the caller folds into the namespace
aggregate. -/
def collectWorkloadCosts (getLabelFor : GetLabelFn) (mapVals : MapValsFn)
    (workload : CostResource) (clusterId : String)
    (namespaceLabelValues : List String) : List Sample × String × ℤ :=
  let workloadTotalCost := workload.total
  let workloadStorageCost := workload.storageTotal
  let workloadComputeCost := workload.computeTotal
  let workloadNetworkCost := workloadTotalCost - workloadStorageCost - workloadComputeCost
  let labelValues := namespaceLabelValues ++ [workload.namespaceName, workload.name, workload.typ]
  match getLabelFor workload.typ workload.namespaceName clusterId workload.name with
  | none => ([], workload.namespaceName, workloadTotalCost)
  | some workloadLabels =>
    let labelValues := labelValues ++ mapVals workloadLabels
    ([Sample.workloadCost workload.total labelValues,
      Sample.resourceCost workloadNetworkCost (labelValues ++ ["network"]),
      Sample.resourceCost workloadStorageCost (labelValues ++ ["storage"]),
      Sample.resourceCost workloadComputeCost (labelValues ++ ["compute"])],
     workload.namespaceName, workloadTotalCost)

/-- Loop body over one workload record inside `collectClusterCosts`: skip the
synthetic `"UnusedStorage"` record, otherwise emit the workload samples and
fold the workload total into the namespace aggregate. -/
def resourceStep (getLabelFor : GetLabelFn) (mapVals : MapValsFn) (clusterId : String)
    (clusterLabelValues : List String) (st : List Sample × List (String × ℤ))
    (resource : CostResource) : List Sample × List (String × ℤ) :=
  if resource.name ≠ "UnusedStorage" then
    let r := collectWorkloadCosts getLabelFor mapVals resource clusterId clusterLabelValues
    (st.1 ++ r.1, upsertAdd st.2 r.2.1 r.2.2)
  else
    st

/-- Loop body over one aggregated namespace at the end of
`collectClusterCosts`: resolve its labels under resource kind `"Namspace"`
(as written in the source) and emit its total sample only on success. -/
def namespaceStep (getLabelFor : GetLabelFn) (mapVals : MapValsFn) (clusterId : String)
    (clusterLabelValues : List String) (acc : List Sample) (e : String × ℤ) :
    List Sample :=
  match getLabelFor "Namspace" e.1 clusterId e.1 with
  | none => acc
  | some labels =>
    acc ++ [Sample.namespaceCost e.2 (clusterLabelValues ++ [e.1] ++ mapVals labels)]

/-- Embedding of `collectClusterCosts`: cluster total sample, then per-record
workload samples with the running namespace aggregate, then one namespace
sample per aggregated namespace whose label lookup succeeds. -/
def collectClusterCosts (getLabelFor : GetLabelFn) (mapVals : MapValsFn)
    (aggregatedClusterCost : AggregatedClusterCost) (cluster : Cluster) :
    List Sample :=
  let clusterId := cluster.id
  let clusterLabelValues := [clusterId, cluster.name]
  match aggregatedClusterCost.totalForDuration with
  | none => []
  | some tfd =>
    let st := tfd.aggregations.foldl
      (fun st agg => agg.foldl (resourceStep getLabelFor mapVals clusterId clusterLabelValues) st)
      ([], [])
    let nsSamples := st.2.foldl (namespaceStep getLabelFor mapVals clusterId clusterLabelValues) []
    Sample.clusterCost tfd.summaryTotal clusterLabelValues :: st.1 ++ nsSamples

/-- Embedding of `Collect`: per cluster, build the billing input for the
current month window, skip the cluster on billing error, otherwise read
`output.AggregatedClusterCosts[0]` — `none` models the panic of that index
when the slice is empty (Go has no check there). -/
def collect (getLabelFor : GetLabelFn) (mapVals : MapValsFn) (client : BillingClientFn)
    (groupByProp : String) (now : Date) : List Cluster → Option (List Sample)
  | [] => some []
  | cluster :: rest =>
    let input : ClusterAggregatedCostInput :=
      ⟨fromDateOf now, toDateOf now, groupByProp, cluster.id⟩
    match client input with
    | none => collect getLabelFor mapVals client groupByProp now rest
    | some output =>
      match output.aggregatedClusterCosts.head? with
      | none => none
      | some acc =>
        (collect getLabelFor mapVals client groupByProp now rest).map
          (collectClusterCosts getLabelFor mapVals acc cluster ++ ·)

end OceanV2

/-! ## The legacy collector of `ocean_aws_cluster_costs.go`

Its `collectWorkloadCosts` derives the compute component from
`workload.Storage.Total` (line `workloadComputeCost :=
spotinst.Float64Value(workload.Storage.Total)`) and emits only the workload
total and the network residual. -/

namespace OceanLegacy

open SpotinstExporter

/-- Embedding of the legacy `collectWorkloadCosts` (the `getLabelsForResource`
collaborator takes `(resourceName, namespaceName, resourceType)`). -/
def collectWorkloadCosts (getLabelsForResource : String → String → String → Option Labels)
    (mapVals : MapValsFn) (workload : CostResource)
    (namespaceLabelValues : List String) : List Sample × String × ℤ :=
  let workloadTotalCost := workload.total
  let workloadStorageCost := workload.storageTotal
  let workloadComputeCost := workload.storageTotal
  let workloadNetworkCost := workloadTotalCost - workloadStorageCost - workloadComputeCost
  let labelValues := namespaceLabelValues ++ [workload.name, workload.typ]
  match getLabelsForResource workload.name workload.namespaceName workload.typ with
  | none => ([], workload.namespaceName, workloadTotalCost)
  | some workloadLabels =>
    let labelValues := labelValues ++ mapVals workloadLabels
    ([Sample.workloadCost workload.total labelValues,
      Sample.resourceCost workloadNetworkCost (labelValues ++ ["network"])],
     workload.namespaceName, workloadTotalCost)

end OceanLegacy

/-! ## The label retriever (`K8sOceanLabelRetriever`)

`PopulateOnce` walks the mcs cost payload and stores each discovered
labels of every discovered resource, and of each namespace, under the composite string
key `cluster:resourceType:namespace:identifier`; `GetLabelFor` is a pure
cache read on the same key.  The go-cache TTL is not modelled: all claims
under study act within one population/collection pass, where every entry is
live. -/

/-- The fields of `mcs.Resource` the retriever reads. -/
structure McsCostResource where
  name : String
  cost : ℤ
  labels : Labels
  deriving DecidableEq, Repr

/-- The fields of `mcs.Namespace` the retriever reads. -/
structure McsNamespace where
  namespaceName : String
  cost : ℤ
  labels : Labels
  deployments : List McsCostResource
  jobs : List McsCostResource
  statefulSets : List McsCostResource
  daemonSets : List McsCostResource
  deriving DecidableEq, Repr

/-- The fields of `mcs.ClusterCost` the retriever reads. -/
structure McsClusterCost where
  totalCost : ℤ
  namespaces : List McsNamespace
  deriving DecidableEq, Repr

/-- `mcs.ClusterCostInput`. -/
structure ClusterCostInput where
  clusterId : String
  fromDate : String
  toDate : String
  deriving DecidableEq, Repr

/-- `mcs.ClusterCostOutput`. -/
structure ClusterCostOutput where
  clusterCosts : List McsClusterCost
  deriving DecidableEq, Repr

/-- The mcs billing client `GetClusterCosts`; `none` models the error
return. -/
abbrev McsClientFn := ClusterCostInput → Option ClusterCostOutput

/-- The label cache, as an association list from composite string keys to
label sets. -/
abbrev LabelCache := List (String × Labels)

/-- `labelCache.Set`: overwrite the entry under the key. -/
def cacheSet : LabelCache → String → Labels → LabelCache
  | [], k, v => [(k, v)]
  | e :: m, k, v => if e.1 = k then (k, v) :: m else e :: cacheSet m k v

/-- `labelCache.Get`. -/
def cacheGet (cache : LabelCache) (k : String) : Option Labels :=
  (cache.find? (fun e => e.1 == k)).map (·.2)

/-- `cacheKeyViaIdentifier`: `fmt.Sprintf("%s:%s:%s:%s", cluster,
resourceType, namespace, resourceIdentifier)`. -/
def cacheKeyViaIdentifier (resourceType namespaceName cluster resourceIdentifier : String) :
    String :=
  cluster ++ ":" ++ resourceType ++ ":" ++ namespaceName ++ ":" ++ resourceIdentifier

/-- `cacheKey`: the resource identifier is the `app.kubernetes.io/name`
label of the resource. -/
def cacheKey (resourceType namespaceName cluster : String) (deployable : McsCostResource) :
    String :=
  cacheKeyViaIdentifier resourceType namespaceName cluster
    (labelsIndex deployable.labels "app.kubernetes.io/name")

/-- `iterateOverResources`: store the labels of every resource under its
composite key. -/
def iterateOverResources (cache : LabelCache) (resourceType namespaceName cluster : String)
    (resources : List McsCostResource) : LabelCache :=
  resources.foldl
    (fun cache deployable =>
      cacheSet cache (cacheKey resourceType namespaceName cluster deployable) deployable.labels)
    cache

/-- Embedding of `PopulateOnce`: per cluster fetch the current-window cost
payload (skipping the cluster on billing error), then store the labels of
every deployment/job/statefulset/daemonset and of the namespace itself
(kind `"Namespace"`, identifier = namespace name). -/
def populateOnce (client : McsClientFn) (clusters : List Cluster) (now : Date)
    (cache : LabelCache) : LabelCache :=
  let fromDate := fromDateOf now
  let toDate := toDateOf now
  clusters.foldl
    (fun cache cluster =>
      match client ⟨cluster.controllerClusterId, fromDate, toDate⟩ with
      | none => cache
      | some output =>
        output.clusterCosts.foldl
          (fun cache clusterCost =>
            clusterCost.namespaces.foldl
              (fun cache ns =>
                let cache := iterateOverResources cache "Deployment" ns.namespaceName cluster.id ns.deployments
                let cache := iterateOverResources cache "Job" ns.namespaceName cluster.id ns.jobs
                let cache := iterateOverResources cache "StatefulSet" ns.namespaceName cluster.id ns.statefulSets
                let cache := iterateOverResources cache "DaemonSet" ns.namespaceName cluster.id ns.daemonSets
                cacheSet cache
                  (cacheKeyViaIdentifier "Namespace" ns.namespaceName cluster.id ns.namespaceName)
                  ns.labels)
              cache)
          cache)
    cache

/-- Embedding of `GetLabelFor`: composite-key cache read; `none` models the
"expected cache contain entry" error. -/
def getLabelFor (cache : LabelCache) (resourceType namespaceName cluster resourceIdentifier : String) :
    Option Labels :=
  cacheGet cache (cacheKeyViaIdentifier resourceType namespaceName cluster resourceIdentifier)

/-! ## Helper lemmas: billing window -/

/-- Every Gregorian month has at least one day. -/
lemma daysInMonth_pos (y m : ℤ) : 1 ≤ daysInMonth y m := by
  unfold daysInMonth
  split
  · split <;> norm_num
  · split <;> norm_num

/-- The day rollover is the identity on in-range day values. -/
lemma normDay_eq_of_in_range (fuel : ℕ) (y m d : ℤ) (h1 : 1 ≤ d)
    (h2 : d ≤ daysInMonth y m) : normDay (fuel + 1) y m d = ⟨y, m, d⟩ := by
  have hlt : ¬ d < 1 := by omega
  have hgt : ¬ d > daysInMonth y m := by omega
  simp [normDay, hlt, hgt]

/-- Month normalization is the identity on in-range months. -/
lemma normMonth_eq_of_in_range (y m : ℤ) (h1 : 1 ≤ m) (h2 : m ≤ 12) :
    normMonth y m = (y, m) := by
  unfold normMonth
  have hd : (m - 1) / 12 = 0 := by omega
  have hm : (m - 1) % 12 = m - 1 := by omega
  rw [hd, hm]
  norm_num

/-! ## Claim C9: the billing window -/

/-- C9: the billing window computed at the start of each collection pass is
`[first day of the current month, first day of the next month)` as date-only
`YYYY-MM-DD` strings: for every valid current date, `fromDate` is the
formatted first of that month and `toDate` the formatted first of the
following month. -/
theorem billing_window_is_current_month (now : Date)
    (hm1 : 1 ≤ now.month) (hm2 : now.month ≤ 12)
    (hd1 : 1 ≤ now.day) (hd2 : now.day ≤ daysInMonth now.year now.month) :
    fromDateOf now = formatDate ⟨now.year, now.month, 1⟩ ∧
    toDateOf now = formatDate
      (if now.month = 12 then ⟨now.year + 1, 1, 1⟩ else ⟨now.year, now.month + 1, 1⟩) := by
  obtain ⟨y, m, d⟩ := now
  simp only at hm1 hm2 hd1 hd2
  have hday : d + (-d + 1) = 1 := by ring
  have h1000 : ∀ y m dd, normDay 1000 y m dd = normDay (999 + 1) y m dd :=
    fun _ _ _ => rfl
  constructor
  · have : goAddDate ⟨y, m, d⟩ 0 0 (-d + 1) = ⟨y, m, 1⟩ := by
      unfold goAddDate
      rw [add_zero, add_zero, normMonth_eq_of_in_range y m hm1 hm2]
      simp only [hday, h1000]
      exact normDay_eq_of_in_range 999 y m 1 le_rfl (daysInMonth_pos y m)
    unfold fromDateOf
    rw [this]
  · by_cases h12 : m = 12
    · have : goAddDate ⟨y, m, d⟩ 0 1 (-d + 1) = ⟨y + 1, 1, 1⟩ := by
        unfold goAddDate normMonth
        subst h12
        norm_num [hday, h1000]
        exact normDay_eq_of_in_range 999 (y + 1) 1 1 le_rfl (daysInMonth_pos (y + 1) 1)
      unfold toDateOf
      rw [this, if_pos h12]
    · have hm2' : m + 1 ≤ 12 := by omega
      have : goAddDate ⟨y, m, d⟩ 0 1 (-d + 1) = ⟨y, m + 1, 1⟩ := by
        unfold goAddDate
        rw [add_zero, normMonth_eq_of_in_range y (m + 1) (by omega) hm2']
        simp only [hday, h1000]
        exact normDay_eq_of_in_range 999 y (m + 1) 1 le_rfl (daysInMonth_pos y (m + 1))
      unfold toDateOf
      rw [this, if_neg h12]

/-- C9 witness: on 2024-03-15 the window is `["2024-03-01", "2024-04-01")`. -/
theorem billing_window_is_current_month_witness :
    fromDateOf ⟨2024, 3, 15⟩ = "2024-03-01" ∧ toDateOf ⟨2024, 3, 15⟩ = "2024-04-01" := by
  have h := billing_window_is_current_month ⟨2024, 3, 15⟩ (by norm_num) (by norm_num)
    (by norm_num) (by decide)
  exact ⟨h.1.trans (by decide), h.2.trans (by decide)⟩

/-! ## Claim C4: network cost residual -/

/-- C4: at a record with total 10, storage 1, compute 2, the legacy
`collectWorkloadCosts` of `ocean_aws_cluster_costs.go` (which reads its
compute component from `workload.Storage.Total`) emits a network sample of
`10 - 1 - 1 = 8`, not the `total - storage - compute = 7` the claim
requires, while the v2 collector (reading `workload.Compute.Total`) emits
exactly `7` together with the independent storage and compute breakdowns. -/
theorem network_residual_legacy_uses_storage_for_compute :
    (OceanLegacy.collectWorkloadCosts (fun _ _ _ => some []) (fun _ => [])
        ⟨"Deployment", "web", "prod", 10, 1, 2⟩ []).1 =
      [Sample.workloadCost 10 ["web", "Deployment"],
       Sample.resourceCost 8 ["web", "Deployment", "network"]] ∧
    (OceanV2.collectWorkloadCosts (fun _ _ _ _ => some []) (fun _ => [])
        ⟨"Deployment", "web", "prod", 10, 1, 2⟩ "cl" []).1 =
      [Sample.workloadCost 10 ["prod", "web", "Deployment"],
       Sample.resourceCost 7 ["prod", "web", "Deployment", "network"],
       Sample.resourceCost 1 ["prod", "web", "Deployment", "storage"],
       Sample.resourceCost 2 ["prod", "web", "Deployment", "compute"]] ∧
    (10 : ℤ) - 1 - 2 ≠ 8 := by
  refine ⟨by decide, by decide, by decide⟩

/-! ## Claim C10: unchecked first-element access in Collect -/

/-- C10: `Collect` reads `output.AggregatedClusterCosts[0]` without an
emptiness check: a successful billing response with an empty list reaches
the out-of-bounds branch (the pass aborts, modelled as `none`), and the
pass is total exactly under the precondition that every successful response
carries at least one aggregated result. -/
theorem collect_first_result_access_unchecked :
    (OceanV2.collect (fun _ _ _ _ => none) (fun _ => []) (fun _ => some ⟨[]⟩) "gb"
        ⟨2024, 3, 15⟩ [⟨"A", "ocean-A", "A"⟩] = none) ∧
    (∀ (getL : GetLabelFn) (mapVals : MapValsFn) (client : BillingClientFn)
        (groupByProp : String) (now : Date) (clusters : List Cluster),
      (∀ input output, client input = some output →
        output.aggregatedClusterCosts ≠ []) →
      (OceanV2.collect getL mapVals client groupByProp now clusters).isSome = true) := by
  constructor
  · decide
  · intro getL mapVals client groupByProp now clusters hclient
    induction clusters with
    | nil => simp [OceanV2.collect]
    | cons cluster rest ih =>
      simp only [OceanV2.collect]
      rcases hcl : client ⟨fromDateOf now, toDateOf now, groupByProp, cluster.id⟩ with _ | output
      · exact ih
      · have hne := hclient _ _ hcl
        rcases houts : output.aggregatedClusterCosts with _ | ⟨acc, accs⟩
        · exact absurd houts hne
        · simp only [houts, List.head?_cons, Option.isSome_map']
          exact ih

/-- C10 witness: with a client whose successful responses all carry one
aggregated result, the pass completes. -/
theorem collect_first_result_access_unchecked_witness :
    (OceanV2.collect (fun _ _ _ _ => none) (fun _ => [])
      (fun _ => some ⟨[⟨none⟩]⟩) "gb" ⟨2024, 3, 15⟩
      [⟨"A", "ocean-A", "A"⟩]).isSome = true := by
  refine collect_first_result_access_unchecked.2 _ _ _ _ _ _ ?_
  intro input output h
  have : output = ⟨[⟨none⟩]⟩ := by
    injection h with h
    exact h.symm
  subst this
  decide

/-! ## Claim C8: per-cluster failure isolation -/

/-- C8: if the billing call for the first cluster errors, `Collect` emits
nothing for it and continues with the remaining clusters, propagating no
error; concretely, with cluster A failing and cluster B succeeding the
emitted set is exactly the samples of B. -/
theorem collect_per_cluster_failure_isolation :
    (∀ (getL : GetLabelFn) (mapVals : MapValsFn) (client : BillingClientFn)
        (groupByProp : String) (now : Date) (a : Cluster) (rest : List Cluster),
      client ⟨fromDateOf now, toDateOf now, groupByProp, a.id⟩ = none →
      OceanV2.collect getL mapVals client groupByProp now (a :: rest) =
        OceanV2.collect getL mapVals client groupByProp now rest) ∧
    (OceanV2.collect (fun _ _ _ _ => none) (fun _ => [])
        (fun input => if input.oceanId = "B" then some ⟨[⟨some ⟨55, []⟩⟩]⟩ else none)
        "gb" ⟨2024, 3, 15⟩ [⟨"A", "ocean-A", "A"⟩, ⟨"B", "ocean-B", "B"⟩] =
      some (OceanV2.collectClusterCosts (fun _ _ _ _ => none) (fun _ => [])
        ⟨some ⟨55, []⟩⟩ ⟨"B", "ocean-B", "B"⟩)) := by
  constructor
  · intro getL mapVals client groupByProp now a rest h
    simp only [OceanV2.collect]
    rw [h]
  · decide

/-- C8 witness: with a client that always errors, prepending a failing
cluster leaves the (empty) emitted set unchanged. -/
theorem collect_per_cluster_failure_isolation_witness :
    OceanV2.collect (fun _ _ _ _ => none) (fun _ => []) (fun _ => none) "gb"
        ⟨2024, 3, 15⟩ [⟨"A", "ocean-A", "A"⟩] =
      OceanV2.collect (fun _ _ _ _ => none) (fun _ => []) (fun _ => none) "gb"
        ⟨2024, 3, 15⟩ [] :=
  collect_per_cluster_failure_isolation.1 _ _ _ _ _ _ _ rfl

/-! ## Claim C5: cache-miss isolation for workloads -/

/-- Scenario retriever for claim C5: labels resolve for workload `w1` and
for the namespace, and miss for workload `w2`. -/
def c5GetLabelFor : GetLabelFn := fun resourceType _namespace _cluster identifier =>
  if resourceType = "Deployment" && identifier = "w1" then some [("team", "x")]
  else if resourceType = "Namspace" then some []
  else none

/-- Scenario data for claim C5: one namespace with a labelled workload of
cost 10 and a cache-missed workload of cost 7. -/
def c5Samples : List Sample :=
  OceanV2.collectClusterCosts c5GetLabelFor (fun _ => [])
    ⟨some ⟨17, [[⟨"Deployment", "w1", "ns1", 10, 1, 2⟩,
                 ⟨"Deployment", "w2", "ns1", 7, 1, 2⟩]]⟩⟩
    ⟨"foo", "ocean-foo", "foo"⟩

/-- C5: a failed workload label lookup suppresses all samples of that workload while its total still returns to the caller (which folds it into the
namespace aggregate); in the two-workload scenario the namespace sample
reads 17 and exactly one workload-cost sample is emitted. -/
theorem workload_label_miss_skips_samples_but_counts_cost :
    (∀ (getLabelFor : GetLabelFn) (mapVals : MapValsFn) (workload : CostResource)
        (clusterId : String) (namespaceLabelValues : List String),
      getLabelFor workload.typ workload.namespaceName clusterId workload.name = none →
      OceanV2.collectWorkloadCosts getLabelFor mapVals workload clusterId
          namespaceLabelValues =
        ([], workload.namespaceName, workload.total)) ∧
    c5Samples.filterMap Sample.namespaceCostValue = [17] ∧
    (c5Samples.filter Sample.isWorkloadCost).length = 1 := by
  refine ⟨?_, by decide, by decide⟩
  intro getLabelFor mapVals workload clusterId namespaceLabelValues h
  simp only [OceanV2.collectWorkloadCosts, h]

/-- C5 witness: in the scenario, the cache-missed workload of cost 7 emits
nothing and hands its namespace and total back to the aggregation. -/
theorem workload_label_miss_skips_samples_but_counts_cost_witness :
    OceanV2.collectWorkloadCosts c5GetLabelFor (fun _ => [])
        ⟨"Deployment", "w2", "ns1", 7, 1, 2⟩ "foo" ["foo", "ocean-foo"] =
      ([], "ns1", 7) :=
  workload_label_miss_skips_samples_but_counts_cost.1 c5GetLabelFor (fun _ => [])
    ⟨"Deployment", "w2", "ns1", 7, 1, 2⟩ "foo" ["foo", "ocean-foo"] (by decide)

/-! ## Claim C6: namespace label key mismatch -/

/-- Scenario metadata client for claim C6: the billing payload carries one
namespace `"foo-ns"` with labels `team=a`. -/
def c6McsClient : McsClientFn := fun _ =>
  some ⟨[⟨100, [⟨"foo-ns", 50, [("team", "a")], [], [], [], []⟩]⟩]⟩

/-- The cache produced by one `PopulateOnce` pass over the C6 scenario. -/
def c6Cache : LabelCache :=
  populateOnce c6McsClient [⟨"foo", "ocean-foo", "foo"⟩] ⟨2024, 3, 15⟩ []

/-- The samples of a collection pass over the same cluster, resolving labels
through the populated cache. -/
def c6Samples : List Sample :=
  OceanV2.collectClusterCosts (getLabelFor c6Cache) (fun _ => [])
    ⟨some ⟨17, [[⟨"Deployment", "w1", "foo-ns", 10, 1, 2⟩]]⟩⟩
    ⟨"foo", "ocean-foo", "foo"⟩

/-- C6: `PopulateOnce` stores the namespace labels under resource kind
`"Namespace"` (identifier = namespace name), and that lookup succeeds — yet
the collection pass queries the cache under the misspelled kind
`"Namspace"`, so the namespace-total sample of a namespace whose labels sit
in the cache is still skipped. -/
theorem namespace_label_key_mismatch :
    getLabelFor c6Cache "Namespace" "foo-ns" "foo" "foo-ns" = some [("team", "a")] ∧
    getLabelFor c6Cache "Namspace" "foo-ns" "foo" "foo-ns" = none ∧
    c6Samples.filter Sample.isNamespaceCost = [] := by
  refine ⟨by decide, by decide, by decide⟩

/-! ## Claim C1: cost conservation of the cardinality reducer -/

/-- Unfolding lemma for map lookup. -/
lemma mapFind_cons (e : String × McsResource) (m : List (String × McsResource))
    (k : String) :
    mapFind (e :: m) k = if e.1 = k then some e.2 else mapFind m k := by
  by_cases he : e.1 = k
  · simp [mapFind, List.find?_cons, he]
  · simp [mapFind, List.find?_cons, he]

/-- Unfolding lemma for the map cost sum. -/
lemma sumMapCosts_cons (e : String × McsResource) (m : List (String × McsResource)) :
    sumMapCosts (e :: m) = e.2.cost + sumMapCosts m := by
  simp [sumMapCosts]

/-- Storing under a fresh key adds the stored cost to the map total. -/
lemma sumMapCosts_mapInsert_none (m : List (String × McsResource)) (k : String)
    (r : McsResource) (h : mapFind m k = none) :
    sumMapCosts (mapInsert m k r) = sumMapCosts m + r.cost := by
  induction m with
  | nil => simp [mapInsert, sumMapCosts]
  | cons e m ih =>
    rw [mapFind_cons] at h
    by_cases he : e.1 = k
    · rw [if_pos he] at h
      exact absurd h (by simp)
    · rw [if_neg he] at h
      simp only [mapInsert, if_neg he]
      rw [sumMapCosts_cons, sumMapCosts_cons, ih h]
      ring

/-- Overwriting an existing key trades the old cost for the stored one. -/
lemma sumMapCosts_mapInsert_some (m : List (String × McsResource)) (k : String)
    (r v : McsResource) (h : mapFind m k = some v) :
    sumMapCosts (mapInsert m k r) = sumMapCosts m - v.cost + r.cost := by
  induction m with
  | nil => simp [mapFind] at h
  | cons e m ih =>
    rw [mapFind_cons] at h
    by_cases he : e.1 = k
    · rw [if_pos he] at h
      have hv : v = e.2 := by
        injection h with h
        exact h.symm
      subst hv
      simp only [mapInsert, if_pos he]
      rw [sumMapCosts_cons, sumMapCosts_cons]
      ring
    · rw [if_neg he] at h
      simp only [mapInsert, if_neg he]
      rw [sumMapCosts_cons, sumMapCosts_cons, ih h]
      ring

/-- One aggregation step adds exactly the record cost to the map total,
provided the record was renamed by stripping or lands on a fresh key. -/
lemma sumMapCosts_aggStep (m : List (String × McsResource)) (r : McsResource)
    (h : uuidRegexReplaceAll r.name ≠ r.name ∨
      mapFind m (normalizeResourceName r.name) = none) :
    sumMapCosts (aggStep m r) = sumMapCosts m + r.cost := by
  unfold aggStep
  by_cases hc : uuidRegexReplaceAll r.name = r.name
  · rw [if_neg (not_not_intro hc), hc]
    have hmiss : mapFind m r.name = none := by
      have := h.resolve_left (not_not_intro hc)
      rwa [normalizeResourceName, hc, if_pos rfl] at this
    exact sumMapCosts_mapInsert_none m r.name r hmiss
  · rw [if_pos hc]
    have hkey : normalizeResourceName r.name = collapseAndTrim (uuidRegexReplaceAll r.name) := by
      rw [normalizeResourceName, if_neg hc]
    rcases hf : mapFind m (collapseAndTrim (uuidRegexReplaceAll r.name)) with _ | v
    · rw [sumMapCosts_mapInsert_none m _ _ hf]
      simp only [hf]
    · rw [sumMapCosts_mapInsert_some m _ _ v hf]
      simp only [hf]
      ring

/-- Unfolding lemma for the record cost sum. -/
lemma sumCosts_cons (r : McsResource) (rs : List McsResource) :
    sumCosts (r :: rs) = r.cost + sumCosts rs := by
  simp [sumCosts]

/-- Safety condition under which the reducer conserves cost: walking the
input as the loop does, every record whose name stripping leaves unchanged
must land on a key that is still free (a record renamed by stripping is
always safe: it is merged, not overwritten). -/
def aggSafe : List (String × McsResource) → List McsResource → Bool
  | _, [] => true
  | m, r :: rs =>
    (decide (uuidRegexReplaceAll r.name ≠ r.name) ||
      (mapFind m (normalizeResourceName r.name)).isNone)
    && aggSafe (aggStep m r) rs

/-- Cost bookkeeping along the aggregation fold. -/
lemma sumMapCosts_foldl_aggStep (rs : List McsResource) :
    ∀ m, aggSafe m rs = true →
      sumMapCosts (rs.foldl aggStep m) = sumMapCosts m + sumCosts rs := by
  induction rs with
  | nil =>
    intro m _
    simp [sumCosts, sumMapCosts]
  | cons r rs ih =>
    intro m h
    rw [aggSafe, Bool.and_eq_true, Bool.or_eq_true, decide_eq_true_eq,
      Option.isNone_iff_eq_none] at h
    rw [List.foldl_cons, ih (aggStep m r) h.2, sumMapCosts_aggStep m r h.1,
      sumCosts_cons]
    ring

/-- The output cost sum is the map cost sum. -/
lemma sumCosts_aggregate (rs : List McsResource) :
    sumCosts (aggregateHighCardinalityResources rs) = sumMapCosts (aggResourceMap rs) := by
  unfold aggregateHighCardinalityResources sumCosts sumMapCosts
  rw [List.map_map]
  rfl

/-- C1 counterexample: the claim fails as stated.  On
`[{name := "foo-12345678", cost := 2}, {name := "foo", cost := 5}]` the
first record is renamed to `"foo"` and stored, and the second record —
whose name stripping leaves unchanged — overwrites that entry without
summing, so cost 2 is lost: the output sums to 5, the input to 7. -/
theorem aggregate_cost_not_conserved_on_unchanged_collision :
    sumCosts (aggregateHighCardinalityResources
        [⟨"foo-12345678", 2⟩, ⟨"foo", 5⟩]) ≠
      sumCosts [⟨"foo-12345678", 2⟩, ⟨"foo", 5⟩] := by
  decide

/-- C1 (amended): the cardinality reduction is cost-conserving provided no
record whose name is unchanged by stripping collides with a key already in
the resource map (in particular, renamed records colliding with earlier
renamed records are always merged without loss). -/
theorem aggregate_cost_conserving_of_no_unchanged_collision
    (resources : List McsResource) (h : aggSafe [] resources = true) :
    sumCosts (aggregateHighCardinalityResources resources) = sumCosts resources := by
  rw [sumCosts_aggregate, aggResourceMap, sumMapCosts_foldl_aggStep resources [] h]
  simp [sumMapCosts]

/-- C1 witness: the concrete bucket of the specification (two renamed
`foo-job` instances and an untouched `bar`) satisfies the safety condition
and conserves cost: both sides sum to 10. -/
theorem aggregate_cost_conserving_of_no_unchanged_collision_witness :
    aggSafe [] [⟨"foo-job-27752145", 2⟩, ⟨"foo-job-27752200", 3⟩, ⟨"bar", 5⟩] = true ∧
    sumCosts (aggregateHighCardinalityResources
        [⟨"foo-job-27752145", 2⟩, ⟨"foo-job-27752200", 3⟩, ⟨"bar", 5⟩]) =
      sumCosts [⟨"foo-job-27752145", 2⟩, ⟨"foo-job-27752200", 3⟩, ⟨"bar", 5⟩] :=
  ⟨by decide,
   aggregate_cost_conserving_of_no_unchanged_collision
     [⟨"foo-job-27752145", 2⟩, ⟨"foo-job-27752200", 3⟩, ⟨"bar", 5⟩] (by decide)⟩

/-! ## Claim C7: exclusion of the synthetic UnusedStorage record -/

/-- The namespace-cost value projections reduce on each sample kind. -/
@[simp] lemma namespaceCostValue_clusterCost (v : ℤ) (l : List String) :
    (Sample.clusterCost v l).namespaceCostValue = none := rfl

@[simp] lemma namespaceCostValue_namespaceCost (v : ℤ) (l : List String) :
    (Sample.namespaceCost v l).namespaceCostValue = some v := rfl

@[simp] lemma namespaceCostValue_workloadCost (v : ℤ) (l : List String) :
    (Sample.workloadCost v l).namespaceCostValue = none := rfl

@[simp] lemma namespaceCostValue_resourceCost (v : ℤ) (l : List String) :
    (Sample.resourceCost v l).namespaceCostValue = none := rfl

/-- Sum of the running namespace aggregate. -/
def nsMapSum (m : List (String × ℤ)) : ℤ :=
  (m.map (·.2)).sum

/-- Unfolding lemma for the aggregate sum. -/
lemma nsMapSum_cons (e : String × ℤ) (m : List (String × ℤ)) :
    nsMapSum (e :: m) = e.2 + nsMapSum m := by
  simp [nsMapSum]

/-- Accumulating a workload cost adds exactly that cost to the aggregate. -/
lemma nsMapSum_upsertAdd (m : List (String × ℤ)) (ns : String) (c : ℤ) :
    nsMapSum (upsertAdd m ns c) = nsMapSum m + c := by
  induction m with
  | nil => simp [upsertAdd, nsMapSum]
  | cons e m ih =>
    simp only [upsertAdd]
    by_cases he : e.1 = ns
    · rw [if_pos he, nsMapSum_cons, nsMapSum_cons]
      ring
    · rw [if_neg he, nsMapSum_cons, nsMapSum_cons, ih]
      ring

/-- Accumulating a non-negative cost keeps every aggregate value
non-negative. -/
lemma upsertAdd_nonneg (m : List (String × ℤ)) (ns : String) (c : ℤ)
    (hm : ∀ v ∈ m.map (·.2), 0 ≤ v) (hc : 0 ≤ c) :
    ∀ v ∈ (upsertAdd m ns c).map (·.2), 0 ≤ v := by
  induction m with
  | nil =>
    intro v hv
    simp [upsertAdd] at hv
    omega
  | cons e m ih =>
    simp only [upsertAdd]
    by_cases he : e.1 = ns
    · rw [if_pos he]
      intro v hv
      simp only [List.map_cons, List.mem_cons] at hv
      rcases hv with hv | hv
      · have he2 : 0 ≤ e.2 := hm e.2 (by simp)
        omega
      · exact hm v (by simp [hv])
    · rw [if_neg he]
      intro v hv
      simp only [List.map_cons, List.mem_cons] at hv
      rcases hv with hv | hv
      · exact hm v (by simp [hv])
      · exact ih (fun x hx => hm x (by simp at hx ⊢; tauto)) v (by simpa using hv)

/-- The pair returned by `collectWorkloadCosts` is always the namespace and
the workload total, whether or not the label lookup succeeded. -/
lemma collectWorkloadCosts_snd (g : GetLabelFn) (mv : MapValsFn) (w : CostResource)
    (cid : String) (nsv : List String) :
    (OceanV2.collectWorkloadCosts g mv w cid nsv).2 = (w.namespaceName, w.total) := by
  rcases hg : g w.typ w.namespaceName cid w.name with _ | ls <;>
    simp [OceanV2.collectWorkloadCosts, hg]

/-- `collectWorkloadCosts` never emits a namespace-cost sample. -/
lemma collectWorkloadCosts_no_namespace_samples (g : GetLabelFn) (mv : MapValsFn)
    (w : CostResource) (cid : String) (nsv : List String) :
    ((OceanV2.collectWorkloadCosts g mv w cid nsv).1).filterMap
      Sample.namespaceCostValue = [] := by
  rcases hg : g w.typ w.namespaceName cid w.name with _ | ls <;>
    simp [OceanV2.collectWorkloadCosts, hg]

/-- State invariant along the workload fold: no namespace samples yet and
every aggregate value non-negative. -/
def StOk (st : List Sample × List (String × ℤ)) : Prop :=
  st.1.filterMap Sample.namespaceCostValue = [] ∧ ∀ v ∈ st.2.map (·.2), 0 ≤ v

/-- One workload step preserves the invariant and adds at most the record
total to the aggregate (exactly, unless the record is skipped). -/
lemma resourceStep_bound (g : GetLabelFn) (mv : MapValsFn) (cid : String)
    (clv : List String) (st : List Sample × List (String × ℤ)) (r : CostResource)
    (hst : StOk st) (hr : 0 ≤ r.total) :
    StOk (OceanV2.resourceStep g mv cid clv st r) ∧
    nsMapSum (OceanV2.resourceStep g mv cid clv st r).2 ≤ nsMapSum st.2 + r.total := by
  unfold OceanV2.resourceStep
  by_cases hn : r.name = "UnusedStorage"
  · rw [if_neg (not_not_intro hn)]
    exact ⟨hst, le_add_of_nonneg_right hr⟩
  · rw [if_pos hn]
    have hsnd := collectWorkloadCosts_snd g mv r cid clv
    dsimp only
    rw [hsnd]
    refine ⟨⟨?_, ?_⟩, ?_⟩
    · rw [List.filterMap_append, hst.1, collectWorkloadCosts_no_namespace_samples]
      rfl
    · exact upsertAdd_nonneg st.2 r.namespaceName r.total hst.2 hr
    · rw [nsMapSum_upsertAdd]

/-- The workload fold over one aggregation preserves the invariant and is
bounded by the sum of the record totals. -/
lemma foldl_resourceStep_bound (g : GetLabelFn) (mv : MapValsFn) (cid : String)
    (clv : List String) (agg : List CostResource) :
    ∀ st, (∀ r ∈ agg, 0 ≤ r.total) → StOk st →
      StOk (agg.foldl (OceanV2.resourceStep g mv cid clv) st) ∧
      nsMapSum (agg.foldl (OceanV2.resourceStep g mv cid clv) st).2 ≤
        nsMapSum st.2 + (agg.map (·.total)).sum := by
  induction agg with
  | nil =>
    intro st _ hst
    refine ⟨hst, ?_⟩
    simp
  | cons r agg ih =>
    intro st hr hst
    have hstep := resourceStep_bound g mv cid clv st r hst (hr r (by simp))
    have hrest := ih _ (fun x hx => hr x (by simp [hx])) hstep.1
    rw [List.foldl_cons]
    refine ⟨hrest.1, ?_⟩
    have h1 := hrest.2
    have h2 := hstep.2
    simp only [List.map_cons, List.sum_cons]
    omega

/-- The same bound for the outer fold over all aggregations. -/
lemma foldl_aggregations_bound (g : GetLabelFn) (mv : MapValsFn) (cid : String)
    (clv : List String) (aggs : List (List CostResource)) :
    ∀ st, (∀ agg ∈ aggs, ∀ r ∈ agg, 0 ≤ r.total) → StOk st →
      StOk (aggs.foldl
        (fun st agg => agg.foldl (OceanV2.resourceStep g mv cid clv) st) st) ∧
      nsMapSum (aggs.foldl
        (fun st agg => agg.foldl (OceanV2.resourceStep g mv cid clv) st) st).2 ≤
        nsMapSum st.2 + (aggs.map (fun agg => (agg.map (·.total)).sum)).sum := by
  induction aggs with
  | nil =>
    intro st _ hst
    refine ⟨hst, ?_⟩
    simp
  | cons agg aggs ih =>
    intro st hr hst
    have hstep := foldl_resourceStep_bound g mv cid clv agg st (hr agg (by simp)) hst
    have hrest := ih _ (fun x hx => hr x (by simp [hx])) hstep.1
    rw [List.foldl_cons]
    refine ⟨hrest.1, ?_⟩
    have h1 := hrest.2
    have h2 := hstep.2
    simp only [List.map_cons, List.sum_cons]
    omega

/-- The namespace emission fold emits at most the aggregate total (a
namespace is dropped when its label lookup misses, and every aggregate value
is non-negative). -/
lemma foldl_namespaceStep_bound (g : GetLabelFn) (mv : MapValsFn) (cid : String)
    (clv : List String) (m : List (String × ℤ)) :
    ∀ acc, (∀ v ∈ m.map (·.2), 0 ≤ v) →
      (((m.foldl (OceanV2.namespaceStep g mv cid clv) acc).filterMap
          Sample.namespaceCostValue).sum) ≤
        ((acc.filterMap Sample.namespaceCostValue).sum + nsMapSum m) := by
  induction m with
  | nil =>
    intro acc _
    simp [nsMapSum]
  | cons e m ih =>
    intro acc hv
    have he : 0 ≤ e.2 := hv e.2 (by simp)
    have hv' : ∀ v ∈ m.map (·.2), 0 ≤ v := fun x hx => hv x (by simp at hx ⊢; tauto)
    rw [List.foldl_cons, nsMapSum_cons]
    rcases hg : g "Namspace" e.1 cid e.1 with _ | ls
    · have hstep : OceanV2.namespaceStep g mv cid clv acc e = acc := by
        unfold OceanV2.namespaceStep
        rw [hg]
      rw [hstep]
      have hrest := ih acc hv'
      omega
    · have hstep : OceanV2.namespaceStep g mv cid clv acc e =
          acc ++ [Sample.namespaceCost e.2 (clv ++ [e.1] ++ mv ls)] := by
        unfold OceanV2.namespaceStep
        rw [hg]
      rw [hstep]
      have hrest := ih (acc ++ [Sample.namespaceCost e.2 (clv ++ [e.1] ++ mv ls)]) hv'
      rw [List.filterMap_append, List.sum_append] at hrest
      simp only [List.filterMap_cons, namespaceCostValue_namespaceCost,
        List.filterMap_nil, List.sum_cons, List.sum_nil] at hrest
      omega

/-- Skipping the synthetic records first does not change the workload fold. -/
lemma foldl_resourceStep_filter (g : GetLabelFn) (mv : MapValsFn) (cid : String)
    (clv : List String) (agg : List CostResource) :
    ∀ st, (agg.filter (fun r => r.name ≠ "UnusedStorage")).foldl
        (OceanV2.resourceStep g mv cid clv) st =
      agg.foldl (OceanV2.resourceStep g mv cid clv) st := by
  induction agg with
  | nil => intro st; rfl
  | cons r agg ih =>
    intro st
    by_cases hn : r.name = "UnusedStorage"
    · have hstep : OceanV2.resourceStep g mv cid clv st r = st := by
        unfold OceanV2.resourceStep
        rw [if_neg (not_not_intro hn)]
      simp only [List.filter_cons, hn]
      rw [List.foldl_cons, hstep]
      simpa using ih st
    · simp only [List.filter_cons]
      rw [if_pos (by simpa using hn)]
      rw [List.foldl_cons, List.foldl_cons]
      exact ih _

/-- The outer-fold version of the previous lemma. -/
lemma foldl_aggregations_filter (g : GetLabelFn) (mv : MapValsFn) (cid : String)
    (clv : List String) (aggs : List (List CostResource)) :
    ∀ st, ((aggs.map (fun agg => agg.filter (fun r => r.name ≠ "UnusedStorage"))).foldl
        (fun st agg => agg.foldl (OceanV2.resourceStep g mv cid clv) st) st) =
      aggs.foldl (fun st agg => agg.foldl (OceanV2.resourceStep g mv cid clv) st) st := by
  induction aggs with
  | nil => intro st; rfl
  | cons agg aggs ih =>
    intro st
    rw [List.map_cons, List.foldl_cons, List.foldl_cons,
      foldl_resourceStep_filter g mv cid clv agg st]
    exact ih _

/-- C7: the designated synthetic record (name `"UnusedStorage"`) is excluded
from both workload emission and the namespace aggregation — removing those
records from the input is invisible to `collectClusterCosts` — and therefore
the emitted namespace totals sum to at most the billing-reported cluster
total whenever all record costs are non-negative and sum to at most that
total. -/
theorem unused_storage_excluded_and_namespace_totals_bounded :
    (∀ (g : GetLabelFn) (mv : MapValsFn) (tfd : TotalForDuration) (cluster : Cluster),
      OceanV2.collectClusterCosts g mv ⟨some tfd⟩ cluster =
        OceanV2.collectClusterCosts g mv
          ⟨some ⟨tfd.summaryTotal,
            tfd.aggregations.map (fun agg =>
              agg.filter (fun r => r.name ≠ "UnusedStorage"))⟩⟩ cluster) ∧
    (∀ (g : GetLabelFn) (mv : MapValsFn) (tfd : TotalForDuration) (cluster : Cluster),
      (∀ agg ∈ tfd.aggregations, ∀ r ∈ agg, 0 ≤ r.total) →
      (tfd.aggregations.map (fun agg => (agg.map (·.total)).sum)).sum ≤
        tfd.summaryTotal →
      ((OceanV2.collectClusterCosts g mv ⟨some tfd⟩ cluster).filterMap
          Sample.namespaceCostValue).sum ≤ tfd.summaryTotal) := by
  constructor
  · intro g mv tfd cluster
    simp only [OceanV2.collectClusterCosts]
    rw [foldl_aggregations_filter]
  · intro g mv tfd cluster hnn hsum
    simp only [OceanV2.collectClusterCosts]
    have hfold := foldl_aggregations_bound g mv cluster.id [cluster.id, cluster.name]
      tfd.aggregations ([], []) hnn ⟨rfl, by simp⟩
    have hns := foldl_namespaceStep_bound g mv cluster.id [cluster.id, cluster.name]
      (tfd.aggregations.foldl
        (fun st agg => agg.foldl
          (OceanV2.resourceStep g mv cluster.id [cluster.id, cluster.name]) st)
        ([], [])).2 [] hfold.1.2
    simp only [List.filterMap_cons, namespaceCostValue_clusterCost,
      List.filterMap_append, List.sum_append]
    rw [hfold.1.1]
    have hmap : nsMapSum ([] : List (String × ℤ)) = 0 := rfl
    rw [hmap] at hfold
    simp only [List.filterMap_nil, List.sum_nil] at hns ⊢
    omega

/-- C7 witness: a bucket with an `"UnusedStorage"` record of cost 5 next to
a workload of cost 10 under cluster total 20; the record is invisible and
the namespace totals stay below the cluster total. -/
theorem unused_storage_excluded_and_namespace_totals_bounded_witness :
    (OceanV2.collectClusterCosts (fun _ _ _ _ => some []) (fun _ => [])
        ⟨some ⟨20, [[⟨"Pod", "UnusedStorage", "ns1", 5, 0, 0⟩,
                     ⟨"Deployment", "w1", "ns1", 10, 1, 2⟩]]⟩⟩
        ⟨"foo", "ocean-foo", "foo"⟩ =
      OceanV2.collectClusterCosts (fun _ _ _ _ => some []) (fun _ => [])
        ⟨some ⟨20, [[⟨"Deployment", "w1", "ns1", 10, 1, 2⟩]]⟩⟩
        ⟨"foo", "ocean-foo", "foo"⟩) ∧
    ((OceanV2.collectClusterCosts (fun _ _ _ _ => some []) (fun _ => [])
        ⟨some ⟨20, [[⟨"Pod", "UnusedStorage", "ns1", 5, 0, 0⟩,
                     ⟨"Deployment", "w1", "ns1", 10, 1, 2⟩]]⟩⟩
        ⟨"foo", "ocean-foo", "foo"⟩).filterMap Sample.namespaceCostValue).sum ≤ 20 := by
  constructor
  · have h := unused_storage_excluded_and_namespace_totals_bounded.1
      (fun _ _ _ _ => some []) (fun _ => [])
      ⟨20, [[⟨"Pod", "UnusedStorage", "ns1", 5, 0, 0⟩,
             ⟨"Deployment", "w1", "ns1", 10, 1, 2⟩]]⟩
      ⟨"foo", "ocean-foo", "foo"⟩
    exact h.trans (by decide)
  · exact unused_storage_excluded_and_namespace_totals_bounded.2
      (fun _ _ _ _ => some []) (fun _ => [])
      ⟨20, [[⟨"Pod", "UnusedStorage", "ns1", 5, 0, 0⟩,
             ⟨"Deployment", "w1", "ns1", 10, 1, 2⟩]]⟩
      ⟨"foo", "ocean-foo", "foo"⟩ (by decide) (by decide)

/-! ## Claim C2: order independence of the cardinality reducer -/

/-- The cost stored under a key of the resource map. -/
def lookupCost (m : List (String × McsResource)) (k : String) : Option ℤ :=
  (mapFind m k).map (·.cost)

/-- Every record of the list is renamed by stripping. -/
def allChanged (rs : List McsResource) : Bool :=
  rs.all (fun r => decide (uuidRegexReplaceAll r.name ≠ r.name))

/-- Total input cost normalizing to a given key. -/
def costSumK (rs : List McsResource) (k : String) : ℤ :=
  ((rs.filter (fun r => normalizeResourceName r.name = k)).map (·.cost)).sum

/-- Does some record of the list normalize to the key? -/
def hitsK (rs : List McsResource) (k : String) : Bool :=
  rs.any (fun r => normalizeResourceName r.name = k)

/-- The keys of the resource map. -/
def keysOf (m : List (String × McsResource)) : List String :=
  m.map (·.1)

/-- The (name, cost) pairs of the reducer output, the data the claim
compares as a multiset. -/
def aggPairs (rs : List McsResource) : List (String × ℤ) :=
  (aggregateHighCardinalityResources rs).map (fun r => (r.name, r.cost))

/-- Lookup after store. -/
lemma mapFind_mapInsert (m : List (String × McsResource)) (k k2 : String)
    (r : McsResource) :
    mapFind (mapInsert m k r) k2 = if k = k2 then some r else mapFind m k2 := by
  induction m with
  | nil =>
    by_cases hk : k = k2
    · subst hk
      simp [mapInsert, mapFind, List.find?]
    · have hb : (k == k2) = false := by simpa using hk
      simp [mapInsert, mapFind, List.find?, hb, hk]
  | cons e m ih =>
    simp only [mapInsert]
    by_cases he : e.1 = k
    · rw [if_pos he, mapFind_cons, mapFind_cons, he]
      by_cases hk : k = k2
      · rw [if_pos hk, if_pos hk]
      · rw [if_neg hk, if_neg hk, if_neg hk]
    · rw [if_neg he, mapFind_cons, mapFind_cons, ih]
      by_cases hk : k = k2
      · have he2 : ¬ e.1 = k2 := fun h => he (h.trans hk.symm)
        rw [if_pos hk, if_neg he2, if_pos hk]
      · rw [if_neg hk, if_neg hk]

/-- An aggregation step on a record renamed by stripping merges into the
normalized key: the stored record carries the normalized name and the sum of
the incoming cost with whatever the key already held. -/
lemma aggStep_changed (m : List (String × McsResource)) (r : McsResource)
    (h : uuidRegexReplaceAll r.name ≠ r.name) :
    aggStep m r = mapInsert m (normalizeResourceName r.name)
      ⟨normalizeResourceName r.name,
       r.cost + (lookupCost m (normalizeResourceName r.name)).getD 0⟩ := by
  unfold aggStep
  rw [if_pos h]
  have hkey : normalizeResourceName r.name = collapseAndTrim (uuidRegexReplaceAll r.name) := by
    rw [normalizeResourceName, if_neg (fun hc => h hc)]
  rw [← hkey]
  rcases hf : mapFind m (normalizeResourceName r.name) with _ | v
  · simp [hf, lookupCost]
  · simp [hf, lookupCost]

/-- No record normalizes to the key, so the filtered cost sum vanishes. -/
lemma costSumK_eq_zero_of_not_hits (rs : List McsResource) (k : String)
    (h : hitsK rs k = false) : costSumK rs k = 0 := by
  induction rs with
  | nil => rfl
  | cons r rs ih =>
    rw [hitsK, List.any_cons, Bool.or_eq_false_iff] at h
    rw [costSumK, List.filter_cons, if_neg (by simpa using h.1)]
    exact ih h.2

/-- Characterization of the final map: under all-changed inputs, the cost
stored under a key is the input cost sum normalizing to it, on top of
whatever the starting map held. -/
lemma lookupCost_foldl_aggStep (rs : List McsResource) :
    ∀ (m : List (String × McsResource)) (k : String), allChanged rs = true →
      lookupCost (rs.foldl aggStep m) k =
        if hitsK rs k = true then
          some (costSumK rs k + (lookupCost m k).getD 0)
        else lookupCost m k := by
  induction rs with
  | nil =>
    intro m k _
    simp [hitsK, costSumK]
  | cons r rs ih =>
    intro m k hch
    rw [allChanged, List.all_cons, Bool.and_eq_true, decide_eq_true_eq] at hch
    rw [List.foldl_cons, aggStep_changed m r hch.1,
      ih _ k (by rw [allChanged]; exact hch.2)]
    have hfind := mapFind_mapInsert m (normalizeResourceName r.name) k
      ⟨normalizeResourceName r.name,
       r.cost + (lookupCost m (normalizeResourceName r.name)).getD 0⟩
    by_cases hk : normalizeResourceName r.name = k
    · have hhits : hitsK (r :: rs) k = true := by
        rw [hitsK, List.any_cons]
        simp [hk]
      have hsum : costSumK (r :: rs) k = r.cost + costSumK rs k := by
        rw [costSumK, List.filter_cons, if_pos (by simpa using hk)]
        simp [costSumK]
      have hlook : lookupCost (mapInsert m (normalizeResourceName r.name)
          ⟨normalizeResourceName r.name,
           r.cost + (lookupCost m (normalizeResourceName r.name)).getD 0⟩) k =
          some (r.cost + (lookupCost m k).getD 0) := by
        rw [lookupCost, hfind, if_pos hk, hk]
        rfl
      rw [hlook, hhits, hsum]
      by_cases hrs : hitsK rs k = true
      · rw [if_pos hrs, if_pos rfl]
        simp only [Option.getD_some, Option.some.injEq]
        ring
      · rw [if_neg hrs, if_pos rfl,
          costSumK_eq_zero_of_not_hits rs k (by simpa using hrs)]
        simp only [Option.some.injEq]
        ring
    · have hhits : hitsK (r :: rs) k = hitsK rs k := by
        rw [hitsK, hitsK, List.any_cons]
        simp [hk]
      have hsum : costSumK (r :: rs) k = costSumK rs k := by
        rw [costSumK, costSumK, List.filter_cons, if_neg (by simpa using hk)]
      have hlook : lookupCost (mapInsert m (normalizeResourceName r.name)
          ⟨normalizeResourceName r.name,
           r.cost + (lookupCost m (normalizeResourceName r.name)).getD 0⟩) k =
          lookupCost m k := by
        rw [lookupCost, hfind, if_neg hk]
        rfl
      rw [hlook, hhits, hsum]

/-- The key list after a store: unchanged if the key existed, else the key
is appended. -/
lemma keysOf_mapInsert (m : List (String × McsResource)) (k : String) (r : McsResource) :
    keysOf (mapInsert m k r) =
      if k ∈ keysOf m then keysOf m else keysOf m ++ [k] := by
  induction m with
  | nil => simp [mapInsert, keysOf]
  | cons e m ih =>
    simp only [mapInsert]
    by_cases he : e.1 = k
    · rw [if_pos he]
      have : k ∈ keysOf (e :: m) := by simp [keysOf, he.symm]
      rw [if_pos this]
      simp [keysOf, he]
    · rw [if_neg he]
      have hmem : k ∈ keysOf (e :: m) ↔ k ∈ keysOf m := by
        simp [keysOf]
        intro h
        exact absurd h.symm he
      by_cases hk : k ∈ keysOf m
      · rw [if_pos (hmem.mpr hk)]
        simp only [keysOf, List.map_cons]
        rw [keysOf] at ih
        rw [ih, if_pos hk]
        rfl
      · rw [if_neg (fun h => hk (hmem.mp h))]
        simp only [keysOf, List.map_cons]
        rw [keysOf] at ih
        rw [ih, if_neg hk]
        rfl

/-- Storing preserves distinctness of the keys. -/
lemma keysOf_mapInsert_nodup (m : List (String × McsResource)) (k : String)
    (r : McsResource) (h : (keysOf m).Nodup) : (keysOf (mapInsert m k r)).Nodup := by
  rw [keysOf_mapInsert]
  by_cases hk : k ∈ keysOf m
  · rwa [if_pos hk]
  · rw [if_neg hk]
    rw [List.nodup_append]
    exact ⟨h, List.nodup_singleton k, by simpa using hk⟩

/-- The resource map always has distinct keys. -/
lemma keysOf_foldl_aggStep_nodup (rs : List McsResource) :
    ∀ m, (keysOf m).Nodup → (keysOf (rs.foldl aggStep m)).Nodup := by
  induction rs with
  | nil => intro m h; exact h
  | cons r rs ih =>
    intro m h
    rw [List.foldl_cons]
    refine ih _ ?_
    unfold aggStep
    by_cases hc : uuidRegexReplaceAll r.name ≠ r.name
    · rw [if_pos hc]
      exact keysOf_mapInsert_nodup _ _ _ h
    · rw [if_neg hc]
      exact keysOf_mapInsert_nodup _ _ _ h

/-- Every stored record carries its key as its name. -/
def goodNames (m : List (String × McsResource)) : Prop :=
  ∀ e ∈ m, (e : String × McsResource).2.name = e.1

/-- Storing a record named after its key preserves the name invariant. -/
lemma goodNames_mapInsert (m : List (String × McsResource)) (k : String)
    (r : McsResource) (h : goodNames m) (hr : r.name = k) :
    goodNames (mapInsert m k r) := by
  induction m with
  | nil =>
    intro e he
    simp [mapInsert] at he
    subst he
    exact hr
  | cons x m ih =>
    simp only [mapInsert]
    by_cases hx : x.1 = k
    · rw [if_pos hx]
      intro e he
      rcases List.mem_cons.mp he with he | he
      · subst he; exact hr
      · exact h e (List.mem_cons_of_mem x he)
    · rw [if_neg hx]
      intro e he
      rcases List.mem_cons.mp he with he | he
      · rw [he]
        exact h x (List.mem_cons_self x m)
      · exact ih (fun y hy => h y (List.mem_cons_of_mem x hy)) e he

/-- The resource map always satisfies the name invariant. -/
lemma goodNames_foldl_aggStep (rs : List McsResource) :
    ∀ m, goodNames m → goodNames (rs.foldl aggStep m) := by
  induction rs with
  | nil => intro m h; exact h
  | cons r rs ih =>
    intro m h
    rw [List.foldl_cons]
    refine ih _ ?_
    unfold aggStep
    by_cases hc : uuidRegexReplaceAll r.name ≠ r.name
    · rw [if_pos hc]
      exact goodNames_mapInsert _ _ _ h rfl
    · rw [if_neg hc]
      refine goodNames_mapInsert _ _ _ h ?_
      exact (not_ne_iff.mp hc).symm

/-- Lookup on the projected (key, cost) pairs. -/
def plook (l : List (String × ℤ)) (k : String) : Option ℤ :=
  (l.find? (fun e => e.1 == k)).map (·.2)

/-- Unfolding lemma for `plook`. -/
lemma plook_cons (e : String × ℤ) (l : List (String × ℤ)) (k : String) :
    plook (e :: l) k = if e.1 = k then some e.2 else plook l k := by
  by_cases he : e.1 = k
  · simp [plook, List.find?_cons, he]
  · simp [plook, List.find?_cons, he]

/-- Projected pair lookup is map cost lookup. -/
lemma plook_map_pairs (m : List (String × McsResource)) (k : String) :
    plook (m.map (fun e => (e.1, e.2.cost))) k = lookupCost m k := by
  induction m with
  | nil => rfl
  | cons e m ih =>
    rw [List.map_cons, plook_cons, lookupCost, mapFind_cons]
    by_cases he : e.1 = k
    · rw [if_pos he, if_pos he]
      rfl
    · rw [if_neg he, if_neg he]
      exact ih

/-- A `plook` hit is membership. -/
lemma mem_of_plook_eq_some (l : List (String × ℤ)) (k : String) (v : ℤ)
    (h : plook l k = some v) : (k, v) ∈ l := by
  induction l with
  | nil => simp [plook] at h
  | cons e l ih =>
    rw [plook_cons] at h
    by_cases he : e.1 = k
    · rw [if_pos he] at h
      injection h with h
      have : e = (k, v) := by
        obtain ⟨e1, e2⟩ := e
        simp at he h
        simp [he, h]
      rw [← this]
      exact List.mem_cons_self e l
    · rw [if_neg he] at h
      exact List.mem_cons_of_mem e (ih h)

/-- A `plook` miss means the key is absent. -/
lemma plook_eq_none_of_not_mem (l : List (String × ℤ)) (k : String)
    (h : k ∉ l.map Prod.fst) : plook l k = none := by
  induction l with
  | nil => rfl
  | cons e l ih =>
    rw [List.map_cons, List.mem_cons] at h
    push_neg at h
    rw [plook_cons, if_neg (fun hk => h.1 hk.symm)]
    exact ih h.2

/-- Lookup distributes over appending. -/
lemma plook_append (s t : List (String × ℤ)) (k : String) :
    plook (s ++ t) k = match plook s k with
      | some v => some v
      | none => plook t k := by
  induction s with
  | nil => simp [plook]
  | cons e s ih =>
    rw [List.cons_append, plook_cons, plook_cons]
    by_cases he : e.1 = k
    · rw [if_pos he, if_pos he]
    · rw [if_neg he, if_neg he, ih]

/-- Removing the unique entry of a key removes exactly that key from the
lookup function. -/
lemma plook_middle (s t : List (String × ℤ)) (k : String) (v : ℤ)
    (hnd : ((s ++ (k, v) :: t).map Prod.fst).Nodup) :
    plook (s ++ t) k = none ∧
    ∀ k2, k2 ≠ k → plook (s ++ t) k2 = plook (s ++ (k, v) :: t) k2 := by
  rw [List.map_append, List.map_cons, List.nodup_append] at hnd
  have hks : k ∉ s.map Prod.fst := fun hk =>
    hnd.2.2 hk (List.mem_cons_self k _)
  have hkt : k ∉ t.map Prod.fst := by
    have := hnd.2.1
    rw [List.nodup_cons] at this
    exact this.1
  constructor
  · rw [plook_append, plook_eq_none_of_not_mem s k hks,
      plook_eq_none_of_not_mem t k hkt]
  · intro k2 hk2
    rw [plook_append, plook_append]
    rcases hs : plook s k2 with _ | w
    · rw [plook_cons, if_neg (fun h => hk2 h.symm)]
    · rfl

/-- Association lists with distinct keys and the same lookup function hold
the same entries up to permutation. -/
lemma perm_of_plook_eq (l1 : List (String × ℤ)) :
    ∀ (l2 : List (String × ℤ)), (l1.map Prod.fst).Nodup → (l2.map Prod.fst).Nodup →
      (∀ k, plook l1 k = plook l2 k) → l1.Perm l2 := by
  induction l1 with
  | nil =>
    intro l2 _ _ hl
    cases l2 with
    | nil => exact List.Perm.refl []
    | cons e l2 =>
      have := hl e.1
      rw [plook_cons, if_pos rfl] at this
      simp [plook] at this
  | cons e l1 ih =>
    intro l2 hnd1 hnd2 hl
    have hsome : plook l2 e.1 = some e.2 := by
      rw [← hl e.1, plook_cons, if_pos rfl]
    have hmem : (e.1, e.2) ∈ l2 := mem_of_plook_eq_some l2 e.1 e.2 hsome
    obtain ⟨s, t, rfl⟩ := List.append_of_mem hmem
    rw [List.map_cons, List.nodup_cons] at hnd1
    have hmid := plook_middle s t e.1 e.2 hnd2
    have htail : l1.Perm (s ++ t) := by
      refine ih _ hnd1.2 ?_ ?_
      · refine List.Nodup.sublist ?_ hnd2
        exact List.Sublist.map Prod.fst
          (List.Sublist.append_left (List.sublist_cons_self (e.1, e.2) t) s)
      · intro k
        by_cases hk : k = e.1
        · subst hk
          rw [hmid.1, plook_eq_none_of_not_mem l1 e.1 hnd1.1]
        · rw [hmid.2 k hk, ← hl k, plook_cons, if_neg (fun h => hk h.symm)]
    have h1 : (e :: l1).Perm (e :: (s ++ t)) := htail.cons e
    have h2 : (e :: (s ++ t)).Perm (s ++ (e.1, e.2) :: t) := List.perm_middle.symm
    exact h1.trans h2

/-- C2 counterexample: the claim fails as stated.  The two orderings of
`{foo-12345678: 2, foo: 5}` are permutations of each other, yet one order
merges the costs (pair `(foo, 7)`) and the other overwrites (pair
`(foo, 5)`), so the output pair multisets differ. -/
theorem aggregate_not_order_independent :
    ([⟨"foo-12345678", 2⟩, ⟨"foo", 5⟩] : List McsResource).Perm
      [⟨"foo", 5⟩, ⟨"foo-12345678", 2⟩] ∧
    ¬ (aggPairs [⟨"foo-12345678", 2⟩, ⟨"foo", 5⟩]).Perm
        (aggPairs [⟨"foo", 5⟩, ⟨"foo-12345678", 2⟩]) := by
  constructor
  · exact List.Perm.swap _ _ _
  · decide

/-- C2 (amended): the cardinality reduction is order-independent — equal
multisets of (normalized name, total cost) pairs for any two permuted
inputs — provided stripping changes the name of every record (records with
unchanged names can overwrite rather than merge, breaking this). -/
theorem aggregate_order_independent_of_all_changed (rs1 rs2 : List McsResource)
    (hperm : rs1.Perm rs2) (hch : allChanged rs1 = true) :
    (aggPairs rs1).Perm (aggPairs rs2) := by
  have hch2 : allChanged rs2 = true := by
    rw [allChanged, List.all_eq_true] at hch ⊢
    exact fun r hr => hch r (hperm.mem_iff.mpr hr)
  have hpairs : ∀ rs : List McsResource,
      aggPairs rs = (aggResourceMap rs).map (fun e => (e.1, e.2.cost)) := by
    intro rs
    rw [aggPairs, aggregateHighCardinalityResources, List.map_map]
    refine List.map_congr_left ?_
    intro e he
    have hg := goodNames_foldl_aggStep rs [] (by intro x hx; simp at hx) e he
    simp only [Function.comp_apply]
    rw [hg]
  rw [hpairs rs1, hpairs rs2]
  have hnd1 : ((aggResourceMap rs1).map (fun e => (e.1, e.2.cost))).map Prod.fst
      |>.Nodup := by
    rw [List.map_map]
    exact keysOf_foldl_aggStep_nodup rs1 [] (by simp [keysOf])
  have hnd2 : ((aggResourceMap rs2).map (fun e => (e.1, e.2.cost))).map Prod.fst
      |>.Nodup := by
    rw [List.map_map]
    exact keysOf_foldl_aggStep_nodup rs2 [] (by simp [keysOf])
  refine perm_of_plook_eq _ _ hnd1 hnd2 ?_
  intro k
  rw [plook_map_pairs, plook_map_pairs, aggResourceMap, aggResourceMap,
    lookupCost_foldl_aggStep rs1 [] k hch, lookupCost_foldl_aggStep rs2 [] k hch2]
  have hhits : hitsK rs1 k = hitsK rs2 k := by
    rw [hitsK, hitsK]
    rcases h : rs2.any (fun r => normalizeResourceName r.name = k) with _ | _
    · rw [List.any_eq_false] at h ⊢
      exact fun r hr => h r (hperm.mem_iff.mp hr)
    · rw [List.any_eq_true] at h ⊢
      obtain ⟨r, hr, hk⟩ := h
      exact ⟨r, hperm.mem_iff.mpr hr, hk⟩
  have hsum : costSumK rs1 k = costSumK rs2 k := by
    rw [costSumK, costSumK]
    exact ((hperm.filter _).map _).sum_eq
  rw [hhits, hsum]

/-- C2 witness: the two orderings of the all-renamed bucket
`{foo-job-27752145: 2, foo-job-27752200: 3}` yield the same pair multiset. -/
theorem aggregate_order_independent_of_all_changed_witness :
    (aggPairs [⟨"foo-job-27752145", 2⟩, ⟨"foo-job-27752200", 3⟩]).Perm
      (aggPairs [⟨"foo-job-27752200", 3⟩, ⟨"foo-job-27752145", 2⟩]) :=
  aggregate_order_independent_of_all_changed
    [⟨"foo-job-27752145", 2⟩, ⟨"foo-job-27752200", 3⟩]
    [⟨"foo-job-27752200", 3⟩, ⟨"foo-job-27752145", 2⟩]
    (List.Perm.swap _ _ _) (by decide)

/-! ## Claim C3: idempotence of identifier normalization -/

/-- The list of characters is free of hyphens. -/
def noHyphen (l : List Char) : Bool :=
  l.all (fun c => c ≠ '-')

/-- The first `k` characters exist and are decimal digits (the success
condition of the `[0-9]{k}` matcher). -/
def digitsPre (k : Nat) (l : List Char) : Bool :=
  (l.take k).length = k && (l.take k).all Char.isDigit

/-- Some position of the list starts an 8-digit run. -/
def has8 : List Char → Bool
  | [] => false
  | c :: cs => digitsPre 8 (c :: cs) || has8 cs

/-- The timestamp matcher succeeds exactly on an 8-digit prefix. -/
lemma matchTimestamp_eq (l : List Char) :
    matchTimestamp l = if digitsPre 8 l then some (l.drop 8) else none := rfl

/-- Zero digits are always present. -/
lemma digitsPre_zero (l : List Char) : digitsPre 0 l = true := by
  simp [digitsPre]

/-- Unfolding lemma for a digit prefix over a cons. -/
lemma digitsPre_succ_cons (k : Nat) (c : Char) (cs : List Char) :
    digitsPre (k + 1) (c :: cs) = (c.isDigit && digitsPre k cs) := by
  simp only [digitsPre, List.take_succ_cons, List.length_cons, List.all_cons]
  rcases hd : c.isDigit
  · simp [hd]
  · simp [hd]

/-- A digit prefix is monotone downwards in its length. -/
lemma digitsPre_mono (n k : Nat) (l : List Char) (h : digitsPre n l = true)
    (hk : k ≤ n) : digitsPre k l = true := by
  rw [digitsPre, Bool.and_eq_true, decide_eq_true_eq] at h ⊢
  rw [List.length_take] at h
  have hlen : n ≤ l.length := by omega
  constructor
  · rw [List.length_take]
    omega
  · rw [List.all_eq_true] at h ⊢
    intro a ha
    refine h.2 a ?_
    have : l.take k = (l.take n).take k := by
      rw [List.take_take, Nat.min_def, if_pos hk]
    rw [this] at ha
    exact List.mem_of_mem_take ha

/-- On a hyphen-free list the UUID matcher never fires. -/
lemma matchUUID_eq_none_of_noHyphen (l : List Char) (h : noHyphen l = true) :
    matchUUID l = none := by
  rw [matchUUID]
  rcases h1 : takeExact 8 isHexDigit l with _ | r1
  · rfl
  · have hr1 : r1 = l.drop 8 := by
      rw [takeExact] at h1
      split at h1
      · injection h1 with h1
        exact h1.symm
      · exact absurd h1 (by simp)
    have hnh : noHyphen r1 = true := by
      rw [hr1, noHyphen, List.all_eq_true]
      rw [noHyphen, List.all_eq_true] at h
      exact fun c hc => h c (List.mem_of_mem_drop hc)
    rw [Option.some_bind]
    rcases r1 with _ | ⟨c, r⟩
    · rfl
    · rw [noHyphen, List.all_cons, Bool.and_eq_true, decide_eq_true_eq] at hnh
      have : matchDash (c :: r) = none := by
        rw [matchDash.eq_def]
        split
        · rename_i heq
          injection heq with heq
          exact absurd heq hnh.1
        · rfl
      rw [this]
      rfl

/-- Stripping never introduces a hyphen. -/
lemma stripScan_noHyphen (fuel : Nat) :
    ∀ l, noHyphen l = true → noHyphen (stripScan fuel l) = true := by
  induction fuel with
  | zero => intro l h; exact h
  | succ fuel ih =>
    intro l h
    rcases l with _ | ⟨c, cs⟩
    · exact h
    · rw [stripScan]
      rcases ht : matchTimestamp (c :: cs) with _ | rest
      · rw [matchUUID_eq_none_of_noHyphen _ h]
        rw [noHyphen, List.all_cons, Bool.and_eq_true] at h
        have := ih cs h.2
        rw [noHyphen, List.all_cons, Bool.and_eq_true]
        exact ⟨h.1, this⟩
      · have hrest : rest = (c :: cs).drop 8 := by
          rw [matchTimestamp_eq] at ht
          split at ht
          · injection ht with ht
            exact ht.symm
          · exact absurd ht (by simp)
        refine ih rest ?_
        rw [hrest, noHyphen, List.all_eq_true]
        rw [noHyphen, List.all_eq_true] at h
        exact fun x hx => h x (List.mem_of_mem_drop hx)

/-- Along the scan, a missing digit prefix of length at most 7 stays
missing: stripping can shorten digit runs but never completes one. -/
lemma stripScan_digitsPre (fuel : Nat) :
    ∀ l, noHyphen l = true → ∀ k, k ≤ 7 → digitsPre k l = false →
      digitsPre k (stripScan fuel l) = false := by
  induction fuel with
  | zero => intro l _ k _ h; exact h
  | succ fuel ih =>
    intro l hnh k hk h
    rcases l with _ | ⟨c, cs⟩
    · exact h
    · rw [stripScan]
      rcases ht : matchTimestamp (c :: cs) with _ | rest
      · rw [matchUUID_eq_none_of_noHyphen _ hnh]
        rcases k with _ | j
        · rw [digitsPre_zero] at h
          exact absurd h (by simp)
        · rw [noHyphen, List.all_cons, Bool.and_eq_true] at hnh
          rw [digitsPre_succ_cons] at h ⊢
          rcases hd : c.isDigit
          · simp [hd]
          · rw [hd] at h
            simp only [Bool.true_and] at h
            have := ih cs hnh.2 j (by omega) h
            simp [hd, this]
      · have h8 : digitsPre 8 (c :: cs) = true := by
          rw [matchTimestamp_eq] at ht
          split at ht
          · rename_i hcond
            exact hcond
          · exact absurd ht (by simp)
        have := digitsPre_mono 8 k (c :: cs) h8 (by omega)
        rw [this] at h
        exact absurd h (by simp)

/-- The scan output of a hyphen-free list contains no 8-digit run. -/
lemma stripScan_has8 (fuel : Nat) :
    ∀ l, l.length ≤ fuel → noHyphen l = true →
      has8 (stripScan fuel l) = false := by
  induction fuel with
  | zero =>
    intro l hl _
    have : l = [] := List.length_eq_zero.mp (by omega)
    subst this
    rfl
  | succ fuel ih =>
    intro l hl hnh
    rcases l with _ | ⟨c, cs⟩
    · rfl
    · rw [stripScan]
      rcases ht : matchTimestamp (c :: cs) with _ | rest
      · rw [matchUUID_eq_none_of_noHyphen _ hnh]
        rw [noHyphen, List.all_cons, Bool.and_eq_true] at hnh
        have hlen : cs.length ≤ fuel := by
          rw [List.length_cons] at hl
          omega
        have hrest := ih cs hlen hnh.2
        rw [has8]
        rw [hrest, Bool.or_false]
        rcases hd : c.isDigit
        · rw [digitsPre_succ_cons, hd]
          rfl
        · have h8 : digitsPre 8 (c :: cs) = false := by
            rw [matchTimestamp_eq] at ht
            split at ht
            · exact absurd ht (by simp)
            · rename_i hcond
              simpa using hcond
          rw [digitsPre_succ_cons, hd, Bool.true_and] at h8
          have := stripScan_digitsPre fuel cs hnh.2 7 (le_refl 7) h8
          rw [digitsPre_succ_cons, hd, Bool.true_and]
          exact this
      · have hrest : rest = (c :: cs).drop 8 := by
          rw [matchTimestamp_eq] at ht
          split at ht
          · injection ht with ht
            exact ht.symm
          · exact absurd ht (by simp)
        refine ih rest ?_ ?_
        · rw [hrest, List.length_drop, List.length_cons]
          rw [List.length_cons] at hl
          omega
        · rw [hrest, noHyphen, List.all_eq_true]
          rw [noHyphen, List.all_eq_true] at hnh
          exact fun x hx => hnh x (List.mem_of_mem_drop hx)

/-- On a hyphen-free list with no 8-digit run the scan is the identity. -/
lemma stripScan_id (fuel : Nat) :
    ∀ l, noHyphen l = true → has8 l = false → stripScan fuel l = l := by
  induction fuel with
  | zero => intro l _ _; rfl
  | succ fuel ih =>
    intro l hnh h8
    rcases l with _ | ⟨c, cs⟩
    · rfl
    · rw [has8, Bool.or_eq_false_iff] at h8
      have ht : matchTimestamp (c :: cs) = none := by
        rw [matchTimestamp_eq, h8.1]
        rfl
      rw [stripScan, ht, matchUUID_eq_none_of_noHyphen _ hnh]
      rw [noHyphen, List.all_cons, Bool.and_eq_true] at hnh
      rw [ih cs hnh.2 h8.2]

/-- Collapsing duplicate hyphens is the identity on hyphen-free lists. -/
lemma replaceDoubleHyphen_of_noHyphen :
    ∀ l, noHyphen l = true → replaceDoubleHyphen l = l := by
  suffices H : ∀ n l, l.length ≤ n → noHyphen l = true → replaceDoubleHyphen l = l by
    exact fun l h => H l.length l (le_refl _) h
  intro n
  induction n with
  | zero =>
    intro l hl _
    have : l = [] := List.length_eq_zero.mp (by omega)
    subst this
    rfl
  | succ n ih =>
    intro l hl hnh
    rcases l with _ | ⟨c1, _ | ⟨c2, rest⟩⟩
    · rfl
    · rfl
    · rw [noHyphen, List.all_cons, Bool.and_eq_true, decide_eq_true_eq] at hnh
      rw [replaceDoubleHyphen]
      rw [if_neg (fun hand => hnh.1 hand.1)]
      have : noHyphen (c2 :: rest) = true := hnh.2
      rw [ih (c2 :: rest) (by simp at hl ⊢; omega) this]

/-- Trimming hyphens is the identity on hyphen-free lists. -/
lemma trimHyphens_of_noHyphen (l : List Char) (h : noHyphen l = true) :
    trimHyphens l = l := by
  have hdrop : ∀ m : List Char, noHyphen m = true →
      m.dropWhile (· == '-') = m := by
    intro m hm
    rcases m with _ | ⟨c, cs⟩
    · rfl
    · rw [noHyphen, List.all_cons, Bool.and_eq_true, decide_eq_true_eq] at hm
      rw [List.dropWhile_cons, if_neg (by simpa using hm.1)]
  have hrev : noHyphen l.reverse = true := by
    rw [noHyphen, List.all_eq_true] at h ⊢
    exact fun c hc => h c (List.mem_reverse.mp hc)
  rw [trimHyphens, hdrop l h, hdrop l.reverse hrev, List.reverse_reverse]

/-- C3 counterexample: the claim fails as stated.  Stripping the UUID out of
`1234aaaaaaaa-bbbb-cccc-dddd-eeeeeeeeeeee5678` joins the surrounding digits
into `12345678`, a fresh 8-digit run that only the second application
strips (to the empty string), so one and two applications differ. -/
theorem normalize_not_idempotent :
    normalizeResourceName (normalizeResourceName
        "1234aaaaaaaa-bbbb-cccc-dddd-eeeeeeeeeeee5678") ≠
      normalizeResourceName "1234aaaaaaaa-bbbb-cccc-dddd-eeeeeeeeeeee5678" := by
  decide

/-- C3 (amended): the identifier-normalization step is idempotent on every
name that contains no hyphen (timestamp stripping alone cannot create a new
match; the counterexamples need removed UUID text to join digit runs across
a hyphen). -/
theorem normalize_idempotent_of_no_hyphen (s : String)
    (h : noHyphen s.data = true) :
    normalizeResourceName (normalizeResourceName s) = normalizeResourceName s := by
  by_cases hc : uuidRegexReplaceAll s = s
  · have hs : normalizeResourceName s = s := by
      rw [normalizeResourceName, if_pos hc]
    rw [hs]
    exact hs
  · have hnd : noHyphen (uuidRegexReplaceAll s).data = true :=
      stripScan_noHyphen s.data.length s.data h
    have h8 : has8 (uuidRegexReplaceAll s).data = false :=
      stripScan_has8 s.data.length s.data (le_refl _) h
    have hct : collapseAndTrim (uuidRegexReplaceAll s) = uuidRegexReplaceAll s := by
      rw [collapseAndTrim,
        replaceDoubleHyphen_of_noHyphen _ hnd, trimHyphens_of_noHyphen _ hnd]
    have hstrip2 : uuidRegexReplaceAll (uuidRegexReplaceAll s) =
        uuidRegexReplaceAll s := by
      rw [uuidRegexReplaceAll,
        stripScan_id (uuidRegexReplaceAll s).data.length _ hnd h8]
    have h1 : normalizeResourceName s = uuidRegexReplaceAll s := by
      rw [normalizeResourceName, if_neg hc, hct]
    rw [h1, normalizeResourceName, if_pos hstrip2]

/-- C3 witness: a hyphen-free job name with an embedded timestamp
normalizes the same once and twice. -/
theorem normalize_idempotent_of_no_hyphen_witness :
    noHyphen (String.data "foojob27752145") = true ∧
    normalizeResourceName (normalizeResourceName "foojob27752145") =
      normalizeResourceName "foojob27752145" :=
  ⟨by decide, normalize_idempotent_of_no_hyphen "foojob27752145" (by decide)⟩

end SpotinstExporter
